import Mathlib

/-!
# OGEnsureAlert: the ensure-failure notifier

A shallow embedding of `Source/OGEnsureAlert/Private/OGEnsureAlert.cpp`:

* the regular expression `EnsureMessagePattern` and the backtracking search
  `FRegexMatcher::FindNext` / `GetCaptureGroup` that `Serialize` runs on it;
* `FEnsureNotifierOutputDevice`: `Serialize`, the game-thread task it posts and
  the two button delegates, as functions on the device state that also return
  the calls made into the host's notification subsystem;
* `FOGEnsureAlertModule`: `StartupModule` / `ShutdownModule` over the global
  log's listener list.
-/

namespace OGEnsureAlert

/-! ## Regular expressions -/

/-- The character classes of the host's regular-expression library (ICU): the
tables behind `\s`, `\d`, `\w` and the line terminators that `.` refuses. They
are not part of this repository and are taken as a parameter. -/
structure CharClasses where
  isSpace : Char → Bool
  isDigit : Char → Bool
  isWord : Char → Bool
  isLineTerm : Char → Bool

/-- One-character matchers: a literal, `\s`, `\d`, `\w`, `.` and the union that
a bracket expression such as `[\w:\\.]` denotes. -/
inductive Atom where
  | chr (c : Char)
  | space
  | digit
  | word
  | dot
  | alt (a b : Atom)
  deriving DecidableEq, Repr

/-- Whether the atom accepts the character. -/
def Atom.test (cc : CharClasses) : Atom → Char → Bool
  | .chr c, x => decide (x = c)
  | .space, x => cc.isSpace x
  | .digit, x => cc.isDigit x
  | .word, x => cc.isWord x
  | .dot, x => !cc.isLineTerm x
  | .alt a b, x => a.test cc x || b.test cc x

/-- The pattern language `EnsureMessagePattern` is written in: a sequence of
single characters, repetitions `a{min,}` of a one-character matcher (greedy, or
lazy when written with a trailing `?`) and the two ends of a capture group. -/
inductive Item where
  | atom (a : Atom)
  | rep (a : Atom) (min : Nat) (greedy : Bool)
  | groupOpen (g : Nat)
  | groupClose (g : Nat)
  deriving DecidableEq, Repr

/-- Start and end offset recorded for every capture group. -/
structure Caps where
  start : Nat → Nat
  stop : Nat → Nat

/-- No group has matched yet. -/
def Caps.empty : Caps := ⟨fun _ => 0, fun _ => 0⟩

/-- Record the start offset of group `g`. -/
def Caps.setStart (caps : Caps) (g pos : Nat) : Caps :=
  ⟨fun i => if i = g then pos else caps.start i, caps.stop⟩

/-- Record the end offset of group `g`. -/
def Caps.setStop (caps : Caps) (g pos : Nat) : Caps :=
  ⟨caps.start, fun i => if i = g then pos else caps.stop i⟩

/-- A literal string as a sequence of pattern items. -/
def lits (w : List Char) : List Item := w.map fun c => Item.atom (Atom.chr c)

/-- Greedy repetition: take one more character whenever the class accepts it,
and fall back to the continuation `k` at the longest length that lets the rest
of the pattern match; at least `min` characters are taken. -/
def repGreedy {R : Type} (ok : Char → Bool) (k : Nat → List Char → Option R) :
    Nat → Nat → List Char → Option R
  | min, pos, [] => if min = 0 then k pos [] else none
  | min, pos, c :: t =>
    if ok c then
      match repGreedy ok k (min - 1) (pos + 1) t with
      | some r => some r
      | none => if min = 0 then k pos (c :: t) else none
    else if min = 0 then k pos (c :: t) else none

/-- Lazy repetition: try the continuation `k` first and take one more character
only when the rest of the pattern fails; at least `min` characters are taken. -/
def repLazy {R : Type} (ok : Char → Bool) (k : Nat → List Char → Option R) :
    Nat → Nat → List Char → Option R
  | min, pos, [] => if min = 0 then k pos [] else none
  | min, pos, c :: t =>
    if min = 0 then
      match k pos (c :: t) with
      | some r => some r
      | none => if ok c then repLazy ok k 0 (pos + 1) t else none
    else if ok c then repLazy ok k (min - 1) (pos + 1) t else none

/-- Backtracking match of the pattern at offset `pos`, where `s` is the input
from `pos` on. Returns the end offset and the capture offsets of the first
match in the engine's priority order. -/
def matchHere (cc : CharClasses) : List Item → Caps → Nat → List Char → Option (Nat × Caps)
  | [], caps, pos, _ => some (pos, caps)
  | Item.atom a :: rest, caps, pos, s =>
    match s with
    | [] => none
    | c :: t => if a.test cc c then matchHere cc rest caps (pos + 1) t else none
  | Item.rep a min true :: rest, caps, pos, s =>
    repGreedy (a.test cc) (fun p t => matchHere cc rest caps p t) min pos s
  | Item.rep a min false :: rest, caps, pos, s =>
    repLazy (a.test cc) (fun p t => matchHere cc rest caps p t) min pos s
  | Item.groupOpen g :: rest, caps, pos, s => matchHere cc rest (caps.setStart g pos) pos s
  | Item.groupClose g :: rest, caps, pos, s => matchHere cc rest (caps.setStop g pos) pos s

/-- A successful match: where it begins, where it ends, and its groups. -/
structure Match where
  matchBeginning : Nat
  matchEnding : Nat
  caps : Caps

/-- Leftmost search: try every start offset from `pos` upwards. -/
def findFrom (cc : CharClasses) (pat : List Item) : Nat → List Char → Option Match
  | pos, [] =>
    match matchHere cc pat Caps.empty pos [] with
    | some (e, caps) => some ⟨pos, e, caps⟩
    | none => none
  | pos, c :: t =>
    match matchHere cc pat Caps.empty pos (c :: t) with
    | some (e, caps) => some ⟨pos, e, caps⟩
    | none => findFrom cc pat (pos + 1) t

/-- `FRegexMatcher::FindNext` on a fresh matcher: the first match in the input. -/
def FindNext (cc : CharClasses) (pat : List Item) (input : List Char) : Option Match :=
  findFrom cc pat 0 input

/-- `FRegexMatcher::GetCaptureGroup`: the input between the group's offsets. -/
def GetCaptureGroup (input : List Char) (m : Match) (g : Nat) : List Char :=
  (input.drop (m.caps.start g)).take (m.caps.stop g - m.caps.start g)

/-- The members of the bracket expression `[\w:\\.]`. -/
def pathAtom : Atom :=
  Atom.alt Atom.word (Atom.alt (Atom.chr ':') (Atom.alt (Atom.chr '\\') (Atom.chr '.')))

/-- `EnsureMessagePattern`:
`Ensure condition failed:\s+(.*?)\s+\[File:[\w:\\.]*\] \[Line: \d+\]`. -/
def EnsureMessagePattern : List Item :=
  lits "Ensure condition failed:".toList
    ++ [Item.rep Atom.space 1 true, Item.groupOpen 1, Item.rep Atom.dot 0 false,
        Item.groupClose 1, Item.rep Atom.space 1 true]
    ++ lits "[File:".toList
    ++ [Item.rep pathAtom 0 true]
    ++ lits "] [Line: ".toList
    ++ [Item.rep Atom.digit 1 true]
    ++ lits "]".toList

/-- The engine's classes on Basic Latin input: `\s` is `[\t\n\f\r ]`, `\d` is
`[0-9]`, `\w` is `[A-Za-z0-9_]`, and `.` refuses `\n`, `\v`, `\f` and `\r`. -/
def asciiClasses : CharClasses where
  isSpace c := c = ' ' || c = '\t' || c = '\n' || c = '\r' || c.toNat = 12
  isDigit c := c.isDigit
  isWord c := c.isAlphanum || c = '_'
  isLineTerm c := c = '\n' || c = '\r' || c.toNat = 11 || c.toNat = 12

/-! ## Host engine types -/

/-- `ELogVerbosity::Type`. -/
inductive ELogVerbosity where
  | NoLogging | Fatal | Error | Warning | Display | Log | Verbose | VeryVerbose
  deriving DecidableEq, Repr

/-- `SNotificationItem::ECompletionState`. -/
inductive ECompletionState where
  | CS_None | CS_Pending | CS_Success | CS_Fail
  deriving DecidableEq, Repr

/-- `TSharedPtr<SNotificationItem>`: `none` is the null (invalid) pointer and
`some w` points to the widget `w`. -/
abbrev NotificationPtr := Option Nat

/-- The two button delegates. Each lambda captures `this` and `NotificationKey`,
so a delegate is given by which of the two it is and the key it captured. -/
inductive ButtonDelegate where
  | OpenInLog (NotificationKey : Int)
  | Dismiss (NotificationKey : Int)
  deriving DecidableEq, Repr

/-- The key captured by a delegate. -/
def ButtonDelegate.key : ButtonDelegate → Int
  | .OpenInLog k => k
  | .Dismiss k => k

/-- `FNotificationButtonInfo`. -/
structure FNotificationButtonInfo where
  Text : String
  ToolTip : String
  Callback : ButtonDelegate
  VisibilityOnState : ECompletionState
  deriving DecidableEq

/-- The fields of `FNotificationInfo` that the task sets. The two durations are
the literals `1.0f` and `0.0f`, which are exact, and are kept as rationals. -/
structure FNotificationInfo where
  Text : List Char
  bUseLargeFont : Bool
  bUseSuccessFailIcons : Bool
  bUseThrobber : Bool
  bFireAndForget : Bool
  FadeOutDuration : ℚ
  ExpireDuration : ℚ
  Image : String
  ButtonDetails : List FNotificationButtonInfo
  deriving DecidableEq

/-- Calls made into the host's user interface, in the order they are made. -/
inductive HostCall where
  | TryInvokeTab (TabId : String)
  | AddNotification (Info : FNotificationInfo)
  | SetCompletionState (Item : Nat) (State : ECompletionState)
  | Fadeout (Item : Nat)
  deriving DecidableEq

/-- `TMap<int, TSharedPtr<SNotificationItem>>` as an association list. -/
structure TMap where
  entries : List (Int × NotificationPtr)
  deriving DecidableEq

/-- `TMap::Contains`. -/
def TMap.Contains (m : TMap) (Key : Int) : Bool :=
  m.entries.any fun e => decide (e.1 = Key)

/-- `TMap::Find`: the value stored under the key, if there is one. -/
def TMap.Find (m : TMap) (Key : Int) : Option NotificationPtr :=
  (m.entries.find? fun e => decide (e.1 = Key)).map Prod.snd

/-- `TMap::Remove`. -/
def TMap.Remove (m : TMap) (Key : Int) : TMap :=
  ⟨m.entries.filter fun e => !decide (e.1 = Key)⟩

/-- `TMap::Add`: a value already stored under the key is replaced. -/
def TMap.Add (m : TMap) (Key : Int) (Value : NotificationPtr) : TMap :=
  ⟨(Key, Value) :: (m.Remove Key).entries⟩

/-- `TMap::FindAndRemoveChecked`: the value under the key and the map without
it; `none` is the failed `check` when the key is absent. -/
def TMap.FindAndRemoveChecked (m : TMap) (Key : Int) : Option (NotificationPtr × TMap) :=
  match m.Find Key with
  | some v => some (v, m.Remove Key)
  | none => none

/-- The value of a machine `int` (32 bits, two's complement) after arithmetic:
an increment past the largest value wraps around. -/
def wrapInt32 (x : Int) : Int := (x + 2 ^ 31) % 2 ^ 32 - 2 ^ 31

/-! ## FEnsureNotifierOutputDevice -/

/-- The data members of `FEnsureNotifierOutputDevice` that change. -/
structure FEnsureNotifierOutputDevice where
  NextNotificationKey : Int
  ActiveNotifications : TMap
  deriving DecidableEq

/-- The member initialisers: key `0` and an empty map. -/
def FEnsureNotifierOutputDevice.init : FEnsureNotifierOutputDevice := ⟨0, ⟨[]⟩⟩

/-- The lambda handed to `AsyncTask`; it captures `this` and `EnsureMessage`. -/
structure NotificationTask where
  EnsureMessage : List Char
  deriving DecidableEq

set_option linter.unusedVariables false in
/-- `Serialize`: the device afterwards and the task posted to the game thread,
if one is. `Message` is the text of a NUL-terminated string; `Category` is not
looked at. -/
def Serialize (cc : CharClasses) (GIsEditor : Bool) (dev : FEnsureNotifierOutputDevice)
    (Message : List Char) (Verbosity : ELogVerbosity) (Category : String) :
    FEnsureNotifierOutputDevice × Option NotificationTask :=
  if !GIsEditor || Verbosity != ELogVerbosity.Error then (dev, none)
  else
    match FindNext cc EnsureMessagePattern Message with
    | none => (dev, none)
    | some m => (dev, some ⟨GetCaptureGroup Message m 1⟩)

/-- The `FNotificationInfo` the task builds for the given key. -/
def makeInfo (EnsureMessage : List Char) (NotificationKey : Int) : FNotificationInfo where
  Text := "Ensure Failed\n".toList ++ EnsureMessage
  bUseLargeFont := false
  bUseSuccessFailIcons := true
  bUseThrobber := true
  bFireAndForget := false
  FadeOutDuration := 1
  ExpireDuration := 0
  Image := "MessageLog.Error"
  ButtonDetails :=
    [⟨"Open in Log", "Open the Output Log to see the full error",
        ButtonDelegate.OpenInLog NotificationKey, ECompletionState.CS_Fail⟩,
     ⟨"Dismiss", "Dismiss this notification",
        ButtonDelegate.Dismiss NotificationKey, ECompletionState.CS_Fail⟩]

/-- The body of the posted task, run on the game thread. `NotificationItem` is
what `FSlateNotificationManager::AddNotification` returns for the call. -/
def NotificationTask.run (task : NotificationTask) (dev : FEnsureNotifierOutputDevice)
    (NotificationItem : NotificationPtr) : FEnsureNotifierOutputDevice × List HostCall :=
  let NotificationKey := dev.NextNotificationKey
  let Next := wrapInt32 (dev.NextNotificationKey + 1)
  let Info := makeInfo task.EnsureMessage NotificationKey
  let calls :=
    match NotificationItem with
    | some w => [HostCall.AddNotification Info,
                 HostCall.SetCompletionState w ECompletionState.CS_Fail]
    | none => [HostCall.AddNotification Info]
  (⟨Next, dev.ActiveNotifications.Add NotificationKey NotificationItem⟩, calls)

/-- The delegate of the Dismiss button. -/
def DismissButton (dev : FEnsureNotifierOutputDevice) (NotificationKey : Int) :
    Option (FEnsureNotifierOutputDevice × List HostCall) :=
  if !dev.ActiveNotifications.Contains NotificationKey then some (dev, [])
  else
    match dev.ActiveNotifications.FindAndRemoveChecked NotificationKey with
    | none => none
    | some (Notification, rest) =>
      match Notification with
      | none => some (⟨dev.NextNotificationKey, rest⟩, [])
      | some w => some (⟨dev.NextNotificationKey, rest⟩, [HostCall.Fadeout w])

/-- The delegate of the "Open in Log" button. -/
def OpenInLogButton (dev : FEnsureNotifierOutputDevice) (NotificationKey : Int) :
    Option (FEnsureNotifierOutputDevice × List HostCall) :=
  let tab := HostCall.TryInvokeTab "OutputLog"
  if !dev.ActiveNotifications.Contains NotificationKey then some (dev, [tab])
  else
    match dev.ActiveNotifications.FindAndRemoveChecked NotificationKey with
    | none => none
    | some (Notification, rest) =>
      match Notification with
      | none => some (⟨dev.NextNotificationKey, rest⟩, [tab])
      | some w => some (⟨dev.NextNotificationKey, rest⟩, [tab, HostCall.Fadeout w])

/-- Pressing a button executes its delegate. -/
def ButtonDelegate.execute (dev : FEnsureNotifierOutputDevice) :
    ButtonDelegate → Option (FEnsureNotifierOutputDevice × List HostCall)
  | .OpenInLog k => OpenInLogButton dev k
  | .Dismiss k => DismissButton dev k

/-- What happens on the game thread: a posted task runs (and the host returns
an item from `AddNotification`), or the user presses a button. -/
inductive Event where
  | Create (task : NotificationTask) (NotificationItem : NotificationPtr)
  | Press (button : ButtonDelegate)
  deriving DecidableEq

/-- One game-thread event. -/
def step (dev : FEnsureNotifierOutputDevice) :
    Event → Option (FEnsureNotifierOutputDevice × List HostCall)
  | .Create task item => some (task.run dev item)
  | .Press button => button.execute dev

/-- A sequence of game-thread events, with all the host calls it makes. -/
def run : FEnsureNotifierOutputDevice → List Event →
    Option (FEnsureNotifierOutputDevice × List HostCall)
  | dev, [] => some (dev, [])
  | dev, e :: es =>
    match step dev e with
    | none => none
    | some (dev1, calls1) =>
      match run dev1 es with
      | none => none
      | some (dev2, calls2) => some (dev2, calls1 ++ calls2)

/-- How many notifications the events create. -/
def creations : List Event → Nat
  | [] => 0
  | .Create _ _ :: es => creations es + 1
  | .Press _ :: es => creations es

/-- The valid items the host returned from `AddNotification`. -/
def createdItems : List Event → List Nat
  | [] => []
  | .Create _ (some w) :: es => w :: createdItems es
  | .Create _ none :: es => createdItems es
  | .Press _ :: es => createdItems es

/-- For every `AddNotification` call, the keys captured by its buttons. -/
def buttonKeys : List HostCall → List (List Int)
  | [] => []
  | .AddNotification Info :: cs => (Info.ButtonDetails.map fun b => b.Callback.key) :: buttonKeys cs
  | _ :: cs => buttonKeys cs

/-- The items on which the calls request `Fadeout`, in order. -/
def fadeouts : List HostCall → List Nat
  | [] => []
  | .Fadeout w :: cs => w :: fadeouts cs
  | .TryInvokeTab _ :: cs => fadeouts cs
  | .AddNotification _ :: cs => fadeouts cs
  | .SetCompletionState _ _ :: cs => fadeouts cs

/-! ## FOGEnsureAlertModule -/

/-- The global log `GLog` (`none` once it is gone, else the output devices
registered with it, by address) and the module's `EnsureNotifierDevice`
(`none` is the empty `TUniquePtr`). -/
structure World where
  GLog : Option (List Nat)
  EnsureNotifierDevice : Option Nat
  deriving DecidableEq

/-- `FOutputDeviceRedirector::AddOutputDevice`: the device is added unless it is
registered already. -/
def AddOutputDevice (devices : List Nat) (d : Nat) : List Nat :=
  if d ∈ devices then devices else devices ++ [d]

/-- `FOutputDeviceRedirector::RemoveOutputDevice`. -/
def RemoveOutputDevice (devices : List Nat) (d : Nat) : List Nat :=
  devices.filter fun x => !decide (x = d)

/-- The destructor of `FEnsureNotifierOutputDevice` at address `d`. -/
def destroyDevice (GLog : Option (List Nat)) (d : Nat) : Option (List Nat) :=
  match GLog with
  | some devices => some (RemoveOutputDevice devices d)
  | none => none

/-- `StartupModule`. `address` is where `MakeUnique` places the new device; the
constructor registers it (`none`: `GLog` is null and is dereferenced), and the
assignment then destroys the device `EnsureNotifierDevice` held before. The
start-up line logged first matches no pattern and is left out. -/
def StartupModule (GIsEditor : Bool) (address : Nat) (w : World) : Option World :=
  if GIsEditor then
    match w.GLog with
    | none => none
    | some devices =>
      let registered := some (AddOutputDevice devices address)
      match w.EnsureNotifierDevice with
      | none => some ⟨registered, some address⟩
      | some old => some ⟨destroyDevice registered old, some address⟩
  else some w

/-- `ShutdownModule`: `EnsureNotifierDevice.Reset()`. -/
def ShutdownModule (w : World) : World :=
  match w.EnsureNotifierDevice with
  | none => w
  | some d => ⟨destroyDevice w.GLog d, none⟩

/-! ## Concrete inputs -/

/-- A device with two active notifications, one of them with a null item. -/
def sampleDevice : FEnsureNotifierOutputDevice := ⟨2, ⟨[(0, some 7), (1, none)]⟩⟩

/-- Two creations (the second with a null item) and presses in between. -/
def sampleEvents : List Event :=
  [Event.Create ⟨"a".toList⟩ (some 7), Event.Press (ButtonDelegate.Dismiss 0),
   Event.Press (ButtonDelegate.OpenInLog 0), Event.Create ⟨"b".toList⟩ none,
   Event.Create ⟨"c".toList⟩ (some 8), Event.Press (ButtonDelegate.OpenInLog 2)]

/-! ## The map of active notifications -/

theorem TMap.find_eq_none_of_not_contains (m : TMap) (k : Int)
    (h : m.Contains k = false) : m.Find k = none := by
  obtain ⟨l⟩ := m
  induction l with
  | nil => rfl
  | cons e l ih =>
    simp only [TMap.Contains, List.any_cons, Bool.or_eq_false_iff] at h
    simp only [TMap.Find, List.find?_cons, h.1]
    exact ih h.2

theorem TMap.find_isSome_of_contains (m : TMap) (k : Int)
    (h : m.Contains k = true) : ∃ v, m.Find k = some v := by
  obtain ⟨l⟩ := m
  induction l with
  | nil => simp [TMap.Contains] at h
  | cons e l ih =>
    by_cases he : e.1 = k
    · exact ⟨e.2, by simp [TMap.Find, List.find?_cons, he]⟩
    · simp only [TMap.Contains, List.any_cons, he, decide_False, Bool.false_or] at h
      obtain ⟨v, hv⟩ := ih h
      exact ⟨v, by simpa [TMap.Find, List.find?_cons, he] using hv⟩

theorem TMap.contains_remove_self (m : TMap) (k : Int) : (m.Remove k).Contains k = false := by
  simp [TMap.Contains, TMap.Remove]

theorem TMap.find_remove_ne (m : TMap) {j k : Int} (h : j ≠ k) :
    (m.Remove k).Find j = m.Find j := by
  obtain ⟨l⟩ := m
  show Option.map Prod.snd ((l.filter fun e => !decide (e.1 = k)).find? fun e => decide (e.1 = j))
    = Option.map Prod.snd (l.find? fun e => decide (e.1 = j))
  congr 1
  induction l with
  | nil => rfl
  | cons e l ih =>
    by_cases hk : e.1 = k
    · have hj : ¬ e.1 = j := fun hj => h (hj.symm.trans hk)
      rw [List.filter_cons_of_neg (by simp [hk]), List.find?_cons_of_neg _ (by simp [hj])]
      exact ih
    · rw [List.filter_cons_of_pos (by simp [hk])]
      by_cases hj : e.1 = j
      · rw [List.find?_cons_of_pos _ (by simp [hj]), List.find?_cons_of_pos _ (by simp [hj])]
      · rw [List.find?_cons_of_neg _ (by simp [hj]), List.find?_cons_of_neg _ (by simp [hj])]
        exact ih

theorem TMap.mem_of_find (m : TMap) (k : Int) (v : NotificationPtr)
    (h : m.Find k = some v) : (k, v) ∈ m.entries := by
  simp only [TMap.Find, Option.map_eq_some'] at h
  obtain ⟨e, he, rfl⟩ := h
  have h1 := List.mem_of_find?_eq_some he
  have h2 := List.find?_some he
  simp only [decide_eq_true_eq] at h2
  subst h2
  exact h1

/-- What the Dismiss delegate does, by whether the key is in the map. -/
theorem dismiss_eq (dev : FEnsureNotifierOutputDevice) (k : Int) :
    (dev.ActiveNotifications.Contains k = false ∧ DismissButton dev k = some (dev, [])) ∨
    (∃ v, dev.ActiveNotifications.Contains k = true ∧ dev.ActiveNotifications.Find k = some v ∧
      DismissButton dev k =
        some (⟨dev.NextNotificationKey, dev.ActiveNotifications.Remove k⟩,
          match v with
          | some w => [HostCall.Fadeout w]
          | none => [])) := by
  cases hc : dev.ActiveNotifications.Contains k with
  | false => left; simp [DismissButton, hc]
  | true =>
    right
    obtain ⟨v, hv⟩ := TMap.find_isSome_of_contains _ _ hc
    refine ⟨v, rfl, hv, ?_⟩
    cases v <;> simp [DismissButton, hc, TMap.FindAndRemoveChecked, hv]

/-- The "Open in Log" delegate invokes the tab and then does what Dismiss does. -/
theorem openInLog_eq (dev : FEnsureNotifierOutputDevice) (k : Int) :
    ∃ d c, DismissButton dev k = some (d, c) ∧
      OpenInLogButton dev k = some (d, HostCall.TryInvokeTab "OutputLog" :: c) := by
  cases hc : dev.ActiveNotifications.Contains k with
  | false => exact ⟨dev, [], by simp [DismissButton, hc], by simp [OpenInLogButton, hc]⟩
  | true =>
    obtain ⟨v, hv⟩ := TMap.find_isSome_of_contains _ _ hc
    cases v with
    | none =>
      exact ⟨_, [], by simp [DismissButton, hc, TMap.FindAndRemoveChecked, hv]; rfl,
        by simp [OpenInLogButton, hc, TMap.FindAndRemoveChecked, hv]⟩
    | some w =>
      exact ⟨_, [HostCall.Fadeout w],
        by simp [DismissButton, hc, TMap.FindAndRemoveChecked, hv]; rfl,
        by simp [OpenInLogButton, hc, TMap.FindAndRemoveChecked, hv]⟩

theorem TMap.find_add_self (m : TMap) (k : Int) (v : NotificationPtr) :
    (m.Add k v).Find k = some v := by
  simp [TMap.Add, TMap.Find]

theorem run_isSome (es : List Event) : ∀ dev, (run dev es).isSome = true := by
  induction es with
  | nil => intro dev; rfl
  | cons e es ih =>
    intro dev
    have hstep : ∃ d c, step dev e = some (d, c) := by
      cases e with
      | Create task item => exact ⟨_, _, rfl⟩
      | Press button =>
        cases button with
        | OpenInLog k =>
          obtain ⟨d, c, -, h⟩ := openInLog_eq dev k
          exact ⟨d, _, h⟩
        | Dismiss k =>
          obtain ⟨d, c, h, -⟩ := openInLog_eq dev k
          exact ⟨d, c, h⟩
    obtain ⟨d, c, hdc⟩ := hstep
    have h2 := ih d
    obtain ⟨r, hr⟩ := Option.isSome_iff_exists.mp h2
    simp [run, hdc, hr]

/-- What pressing either button does, by whether its key is in the map. -/
theorem execute_cases (dev : FEnsureNotifierOutputDevice) (b : ButtonDelegate) :
    (dev.ActiveNotifications.Contains b.key = false ∧
      ∃ c, b.execute dev = some (dev, c) ∧ fadeouts c = [] ∧ buttonKeys c = []) ∨
    (∃ v, dev.ActiveNotifications.Contains b.key = true ∧
      dev.ActiveNotifications.Find b.key = some v ∧
      ∃ c, b.execute dev =
          some (⟨dev.NextNotificationKey, dev.ActiveNotifications.Remove b.key⟩, c) ∧
        fadeouts c = v.toList ∧ buttonKeys c = []) := by
  have hd := dismiss_eq dev b.key
  obtain ⟨d, c, hdis, hopen⟩ := openInLog_eq dev b.key
  rcases hd with ⟨hc, h⟩ | ⟨v, hc, hv, h⟩
  · left
    refine ⟨hc, ?_⟩
    rw [h] at hdis
    cases hdis
    cases b with
    | Dismiss k => exact ⟨[], h, rfl, rfl⟩
    | OpenInLog k => exact ⟨_, hopen, rfl, rfl⟩
  · right
    refine ⟨v, hc, hv, ?_⟩
    rw [h] at hdis
    cases hdis
    cases b with
    | Dismiss k => exact ⟨_, h, by cases v <;> rfl, by cases v <;> rfl⟩
    | OpenInLog k => exact ⟨_, hopen, by cases v <;> rfl, by cases v <;> rfl⟩

theorem fadeouts_append (a b : List HostCall) : fadeouts (a ++ b) = fadeouts a ++ fadeouts b := by
  induction a with
  | nil => rfl
  | cons x a ih => cases x <;> simp [fadeouts, ih]

theorem buttonKeys_append (a b : List HostCall) :
    buttonKeys (a ++ b) = buttonKeys a ++ buttonKeys b := by
  induction a with
  | nil => rfl
  | cons x a ih => cases x <;> simp [buttonKeys, ih]

theorem count_fadeout (c : List HostCall) (w : Nat) :
    c.count (HostCall.Fadeout w) = (fadeouts c).count w := by
  induction c with
  | nil => rfl
  | cons x c ih =>
    cases x with
    | Fadeout u =>
      by_cases hu : u = w
      · subst hu; simp [fadeouts, ih]
      · have : ¬ HostCall.Fadeout u = HostCall.Fadeout w := fun h => hu (HostCall.Fadeout.inj h)
        simp [fadeouts, List.count_cons, ih, hu, this]
    | TryInvokeTab t => simp [fadeouts, List.count_cons, ih]
    | AddNotification i => simp [fadeouts, List.count_cons, ih]
    | SetCompletionState i st => simp [fadeouts, List.count_cons, ih]

theorem TMap.contains_remove (m : TMap) (j k : Int) (h : (m.Remove k).Contains j = true) :
    m.Contains j = true := by
  simp only [TMap.Contains, TMap.Remove, List.any_eq_true, List.mem_filter] at h ⊢
  obtain ⟨e, ⟨he, -⟩, hj⟩ := h
  exact ⟨e, he, hj⟩

theorem wrapInt32_succ (n : Int) (h0 : 0 ≤ n) (h1 : n + 1 < 2 ^ 31) : wrapInt32 (n + 1) = n + 1 := by
  unfold wrapInt32
  rw [Int.emod_eq_of_lt (by omega) (by omega)]
  omega

/-- Keys stay below `NextNotificationKey` and are handed out in order, from any
state whose keys are below a non-negative `NextNotificationKey`. -/
theorem run_keys (es : List Event) : ∀ dev : FEnsureNotifierOutputDevice,
    0 ≤ dev.NextNotificationKey → dev.NextNotificationKey + creations es < 2 ^ 31 →
    (∀ k, dev.ActiveNotifications.Contains k = true → 0 ≤ k ∧ k < dev.NextNotificationKey) →
    ∃ d c, run dev es = some (d, c) ∧
      d.NextNotificationKey = dev.NextNotificationKey + creations es ∧
      (∀ k, d.ActiveNotifications.Contains k = true → 0 ≤ k ∧ k < d.NextNotificationKey) ∧
      buttonKeys c = (List.range (creations es)).map fun (i : Nat) =>
        [dev.NextNotificationKey + (i : Int), dev.NextNotificationKey + (i : Int)] := by
  induction es with
  | nil => intro dev _ _ hk; exact ⟨dev, [], rfl, by simp [creations], hk, by simp [creations, buttonKeys]⟩
  | cons e es ih =>
    intro dev h0 hb hk
    cases e with
    | Create task item =>
      simp only [creations, Nat.cast_add, Nat.cast_one] at hb
      have hw : wrapInt32 (dev.NextNotificationKey + 1) = dev.NextNotificationKey + 1 :=
        wrapInt32_succ _ h0 (by omega)
      have hk1 : ∀ k, (task.run dev item).1.ActiveNotifications.Contains k = true →
          0 ≤ k ∧ k < (task.run dev item).1.NextNotificationKey := by
        intro k hc
        simp only [NotificationTask.run, hw] at hc ⊢
        simp only [TMap.Contains, TMap.Add, List.any_cons, Bool.or_eq_true, decide_eq_true_eq] at hc
        rcases hc with hc | hc
        · omega
        · have := hk k (TMap.contains_remove _ _ _ hc)
          omega
      obtain ⟨d, c, hrun, hn, hkd, hbk⟩ := ih (task.run dev item).1
        (by simp only [NotificationTask.run, hw]; omega)
        (by simp only [NotificationTask.run, hw]; omega) hk1
      refine ⟨d, (task.run dev item).2 ++ c, by simp [run, step, hrun], ?_, hkd, ?_⟩
      · rw [hn]; simp only [NotificationTask.run, hw, creations, Nat.cast_add, Nat.cast_one]; omega
      · rw [buttonKeys_append, hbk]
        have h1 : buttonKeys (task.run dev item).2 =
            [[dev.NextNotificationKey, dev.NextNotificationKey]] := by
          cases item <;> rfl
        rw [h1]
        simp only [creations, List.range_succ_eq_map, List.map_cons, List.map_map, Nat.cast_zero,
          add_zero, List.singleton_append, NotificationTask.run, hw]
        refine congrArg (List.cons _) (List.map_congr_left ?_)
        intro i _
        simp only [Function.comp, Nat.cast_succ]
        have : dev.NextNotificationKey + 1 + (i : Int) = dev.NextNotificationKey + ((i : Int) + 1) := by
          omega
        rw [this]
    | Press b =>
      simp only [creations] at hb
      rcases execute_cases dev b with ⟨-, c1, hex, -, hbk1⟩ | ⟨v, -, -, c1, hex, -, hbk1⟩
      · obtain ⟨d, c, hrun, hn, hkd, hbk⟩ := ih dev h0 hb hk
        exact ⟨d, c1 ++ c, by simp [run, step, hex, hrun], by simpa [creations] using hn, hkd,
          by rw [buttonKeys_append, hbk1, hbk]; simp [creations]⟩
      · obtain ⟨d, c, hrun, hn, hkd, hbk⟩ :=
          ih ⟨dev.NextNotificationKey, dev.ActiveNotifications.Remove b.key⟩ h0 hb
            (fun k hc => hk k (TMap.contains_remove _ _ _ hc))
        exact ⟨d, c1 ++ c, by simp [run, step, hex, hrun], by simpa [creations] using hn, hkd,
          by rw [buttonKeys_append, hbk1, hbk]; simp [creations]⟩

theorem mem_entries_remove (m : TMap) (k j : Int) (v : NotificationPtr)
    (h : (j, v) ∈ (m.Remove k).entries) : (j, v) ∈ m.entries ∧ j ≠ k := by
  simp only [TMap.Remove, List.mem_filter, Bool.not_eq_true', decide_eq_false_iff_not] at h
  exact h

/-- Along a run in which the host hands out every valid item once, no item is
asked to fade out twice. The map never holds a valid item under two keys. -/
theorem run_fade (es : List Event) : ∀ dev : FEnsureNotifierOutputDevice,
    (∀ k1 k2 w, (k1, some w) ∈ dev.ActiveNotifications.entries →
      (k2, some w) ∈ dev.ActiveNotifications.entries → k1 = k2) →
    (createdItems es).Nodup →
    (∀ w ∈ createdItems es, ∀ k, (k, some w) ∉ dev.ActiveNotifications.entries) →
    ∃ d c, run dev es = some (d, c) ∧ (fadeouts c).Nodup ∧
      ∀ w ∈ fadeouts c,
        (∃ k, (k, some w) ∈ dev.ActiveNotifications.entries) ∨ w ∈ createdItems es := by
  induction es with
  | nil => intro dev _ _ _; exact ⟨dev, [], rfl, by simp [fadeouts], by simp [fadeouts]⟩
  | cons e es ih =>
    intro dev hinj hnd hfresh
    cases e with
    | Create task item =>
      have hsub : ∀ w, w ∈ createdItems es → w ∈ createdItems (Event.Create task item :: es) := by
        intro w hw
        cases item <;> simp [createdItems, hw]
      have hnd1 : (createdItems es).Nodup := by
        cases item with
        | none => exact hnd
        | some x => exact (List.nodup_cons.mp hnd).2
      have hent : ∀ k v, (k, v) ∈ (task.run dev item).1.ActiveNotifications.entries →
          (k = dev.NextNotificationKey ∧ v = item) ∨ (k, v) ∈ dev.ActiveNotifications.entries := by
        intro k v hm
        simp only [NotificationTask.run, TMap.Add, List.mem_cons, Prod.mk.injEq] at hm
        rcases hm with hm | hm
        · exact Or.inl hm
        · exact Or.inr (mem_entries_remove _ _ _ _ hm).1
      have hitem : ∀ w, item = some w → w ∈ createdItems (Event.Create task item :: es) ∧
          w ∉ createdItems es := by
        intro w hw
        subst hw
        exact ⟨by simp [createdItems], (List.nodup_cons.mp hnd).1⟩
      obtain ⟨d, c, hrun, hcn, hcm⟩ := ih (task.run dev item).1
        (by
          intro k1 k2 w h1 h2
          rcases hent _ _ h1 with ⟨hk1, hv1⟩ | h1
          · rcases hent _ _ h2 with ⟨hk2, -⟩ | h2
            · rw [hk1, hk2]
            · exact absurd h2 (hfresh w (hitem w hv1.symm).1 k2)
          · rcases hent _ _ h2 with ⟨-, hv2⟩ | h2
            · exact absurd h1 (hfresh w (hitem w hv2.symm).1 k1)
            · exact hinj k1 k2 w h1 h2)
        hnd1
        (by
          intro w hw k hm
          rcases hent _ _ hm with ⟨-, hv⟩ | hm
          · exact (hitem w hv.symm).2 hw
          · exact hfresh w (hsub w hw) k hm)
      have hf1 : fadeouts (task.run dev item).2 = [] := by cases item <;> rfl
      refine ⟨d, (task.run dev item).2 ++ c, by simp [run, step, hrun], ?_, ?_⟩
      · rw [fadeouts_append, hf1]; exact hcn
      · intro w hw
        rw [fadeouts_append, hf1] at hw
        rcases hcm w hw with ⟨k, hm⟩ | hm
        · rcases hent _ _ hm with ⟨-, hv⟩ | hm
          · exact Or.inr (hitem w hv.symm).1
          · exact Or.inl ⟨k, hm⟩
        · exact Or.inr (hsub w hm)
    | Press b =>
      have hci : createdItems (Event.Press b :: es) = createdItems es := rfl
      rw [hci] at hnd hfresh ⊢
      rcases execute_cases dev b with ⟨-, c1, hex, hf1, -⟩ | ⟨v, -, hv, c1, hex, hf1, -⟩
      · obtain ⟨d, c, hrun, hcn, hcm⟩ := ih dev hinj hnd hfresh
        refine ⟨d, c1 ++ c, by simp [run, step, hex, hrun], ?_, ?_⟩
        · rw [fadeouts_append, hf1]; exact hcn
        · intro w hw
          rw [fadeouts_append, hf1] at hw
          exact hcm w hw
      · obtain ⟨d, c, hrun, hcn, hcm⟩ :=
          ih ⟨dev.NextNotificationKey, dev.ActiveNotifications.Remove b.key⟩
            (fun k1 k2 w h1 h2 =>
              hinj k1 k2 w (mem_entries_remove _ _ _ _ h1).1 (mem_entries_remove _ _ _ _ h2).1)
            hnd
            (fun w hw k hm => hfresh w hw k (mem_entries_remove _ _ _ _ hm).1)
        have hcm1 : ∀ w ∈ fadeouts c,
            (∃ k, k ≠ b.key ∧ (k, some w) ∈ dev.ActiveNotifications.entries) ∨
              w ∈ createdItems es := by
          intro w hw
          rcases hcm w hw with ⟨k, hm⟩ | hm
          · have := mem_entries_remove _ _ _ _ hm
            exact Or.inl ⟨k, this.2, this.1⟩
          · exact Or.inr hm
        refine ⟨d, c1 ++ c, by simp [run, step, hex, hrun], ?_, ?_⟩
        · rw [fadeouts_append, hf1]
          cases v with
          | none => simpa using hcn
          | some x =>
            have hx := TMap.mem_of_find _ _ _ hv
            simp only [Option.toList, List.singleton_append, List.nodup_cons]
            refine ⟨?_, hcn⟩
            intro hmem
            rcases hcm1 x hmem with ⟨k, hne, hm⟩ | hm
            · exact hne (hinj k b.key x hm hx)
            · exact hfresh x hm b.key hx
        · intro w hw
          rw [fadeouts_append, hf1, List.mem_append] at hw
          rcases hw with hw | hw
          · cases v with
            | none => simp at hw
            | some x =>
              simp only [Option.toList, List.mem_singleton] at hw
              subst hw
              exact Or.inl ⟨b.key, TMap.mem_of_find _ _ _ hv⟩
          · rcases hcm1 w hw with ⟨k, -, hm⟩ | hm
            · exact Or.inl ⟨k, hm⟩
            · exact Or.inr hm

/-! ## The backtracking matcher -/

theorem matchHere_atom_cons (cc : CharClasses) (a : Atom) (rest : List Item) (caps : Caps)
    (pos : Nat) (c : Char) (t : List Char) :
    matchHere cc (Item.atom a :: rest) caps pos (c :: t) =
      if a.test cc c then matchHere cc rest caps (pos + 1) t else none := by
  rw [matchHere]

theorem repGreedy_cons {R : Type} (ok : Char → Bool) (k : Nat → List Char → Option R)
    (min pos : Nat) (c : Char) (t : List Char) :
    repGreedy ok k min pos (c :: t) =
      if ok c then
        match repGreedy ok k (min - 1) (pos + 1) t with
        | some r => some r
        | none => if min = 0 then k pos (c :: t) else none
      else if min = 0 then k pos (c :: t) else none := by
  rw [repGreedy]

theorem repLazy_cons {R : Type} (ok : Char → Bool) (k : Nat → List Char → Option R)
    (pos : Nat) (c : Char) (t : List Char) :
    repLazy ok k 0 pos (c :: t) =
      match k pos (c :: t) with
      | some r => some r
      | none => if ok c then repLazy ok k 0 (pos + 1) t else none := by
  rw [repLazy]; rfl

theorem matchHere_lits (cc : CharClasses) (rest : List Item) (caps : Caps) (w : List Char) :
    ∀ (pos : Nat) (s : List Char),
      matchHere cc (lits w ++ rest) caps pos (w ++ s) = matchHere cc rest caps (pos + w.length) s := by
  induction w with
  | nil => intro pos s; rfl
  | cons c w ih =>
    intro pos s
    have h := ih (pos + 1) s
    have e : pos + 1 + w.length = pos + (c :: w).length := by simp only [List.length_cons]; omega
    rw [e] at h
    rw [← h]
    show matchHere cc (Item.atom (Atom.chr c) :: (lits w ++ rest)) caps pos (c :: (w ++ s)) = _
    rw [matchHere_atom_cons]
    simp [Atom.test]

theorem matchHere_lits_none (cc : CharClasses) (rest : List Item) (caps : Caps) (w : List Char) :
    ∀ (pos : Nat) (s : List Char), ¬ w <+: s → matchHere cc (lits w ++ rest) caps pos s = none := by
  induction w with
  | nil => intro pos s h; exact absurd (List.nil_prefix) h
  | cons c w ih =>
    intro pos s h
    cases s with
    | nil => rfl
    | cons x t =>
      show matchHere cc (Item.atom (Atom.chr c) :: (lits w ++ rest)) caps pos (x :: t) = _
      rw [matchHere_atom_cons]
      by_cases hx : x = c
      · subst hx
        have ht : ¬ w <+: t := fun hw => h ((List.prefix_cons_inj x).mpr hw)
        simp [Atom.test, ih (pos + 1) t ht]
      · simp [Atom.test, hx]

theorem repGreedy_all {R : Type} (ok : Char → Bool) (k : Nat → List Char → Option R)
    (s : List Char) (r : R) (hs : ∀ c t, s = c :: t → ok c = false) (xs : List Char) :
    ∀ (min pos : Nat), (∀ c ∈ xs, ok c = true) → min ≤ xs.length →
      k (pos + xs.length) s = some r → repGreedy ok k min pos (xs ++ s) = some r := by
  induction xs with
  | nil =>
    intro min pos _ hmin hk
    have hm : min = 0 := by simpa using hmin
    subst hm
    cases s with
    | nil => simpa [repGreedy] using hk
    | cons c t =>
      have hc := hs c t rfl
      simpa [repGreedy, hc] using hk
  | cons x xs ih =>
    intro min pos hok hmin hk
    have hx : ok x = true := hok x (List.mem_cons_self _ _)
    have h := ih (min - 1) (pos + 1) (fun c hc => hok c (List.mem_cons_of_mem _ hc))
      (by simp only [List.length_cons] at hmin; omega)
      (by simp only [List.length_cons] at hk; rw [← hk]; congr 1; omega)
    rw [List.cons_append, repGreedy_cons, if_pos hx, h]

theorem repGreedy_isSome {R : Type} (ok : Char → Bool) (k : Nat → List Char → Option R)
    (s : List Char) (xs : List Char) :
    ∀ (min pos : Nat), (∀ c ∈ xs, ok c = true) → min ≤ xs.length →
      (k (pos + xs.length) s).isSome = true → (repGreedy ok k min pos (xs ++ s)).isSome = true := by
  induction xs with
  | nil =>
    intro min pos _ hmin hk
    have hm : min = 0 := by simpa using hmin
    subst hm
    simp only [List.length_nil, Nat.add_zero] at hk
    cases s with
    | nil => simpa [repGreedy] using hk
    | cons c t =>
      rw [List.nil_append, repGreedy_cons]
      by_cases hc : ok c = true
      · rw [if_pos hc]
        cases hrec : repGreedy ok k (0 - 1) (pos + 1) t with
        | some r => rfl
        | none => simpa using hk
      · rw [if_neg hc]; simpa using hk
  | cons x xs ih =>
    intro min pos hok hmin hk
    have hx : ok x = true := hok x (List.mem_cons_self _ _)
    have h := ih (min - 1) (pos + 1) (fun c hc => hok c (List.mem_cons_of_mem _ hc))
      (by simp only [List.length_cons] at hmin; omega)
      (by
        simp only [List.length_cons] at hk
        have e : pos + 1 + xs.length = pos + (xs.length + 1) := by omega
        rw [e]; exact hk)
    obtain ⟨r, hr⟩ := Option.isSome_iff_exists.mp h
    rw [List.cons_append, repGreedy_cons, if_pos hx, hr]
    rfl

theorem repGreedy_none {R : Type} (ok : Char → Bool) (k : Nat → List Char → Option R)
    (s : List Char) :
    ∀ (min pos : Nat),
      (∀ j, j ≤ s.length → min ≤ j → (∀ c ∈ s.take j, ok c = true) →
        k (pos + j) (s.drop j) = none) →
      repGreedy ok k min pos s = none := by
  induction s with
  | nil =>
    intro min pos h
    rw [repGreedy]
    by_cases hm : min = 0
    · rw [if_pos hm]; simpa using h 0 (by simp) (by omega) (by simp)
    · rw [if_neg hm]
  | cons c t ih =>
    intro min pos h
    have h0 : (if min = 0 then k pos (c :: t) else none) = none := by
      by_cases hm : min = 0
      · rw [if_pos hm]; simpa using h 0 (by simp) (by omega) (by simp)
      · rw [if_neg hm]
    have hrec : ok c = true → repGreedy ok k (min - 1) (pos + 1) t = none := by
      intro hc
      apply ih
      intro j hj hmin hall
      have := h (j + 1) (by simpa using hj) (by omega)
        (by
          intro x hx
          simp only [List.take_succ_cons, List.mem_cons] at hx
          rcases hx with hx | hx
          · rw [hx]; exact hc
          · exact hall x hx)
      simp only [List.drop_succ_cons] at this
      rw [← this]
      congr 1
      omega
    rw [repGreedy_cons]
    by_cases hc : ok c = true
    · rw [if_pos hc, hrec hc]; exact h0
    · rw [if_neg hc]; exact h0

theorem repLazy_first {R : Type} (ok : Char → Bool) (k : Nat → List Char → Option R)
    (s : List Char) (r : R) (xs : List Char) :
    ∀ (pos : Nat), (∀ c ∈ xs, ok c = true) →
      (∀ i, i < xs.length → k (pos + i) (xs.drop i ++ s) = none) →
      k (pos + xs.length) s = some r → repLazy ok k 0 pos (xs ++ s) = some r := by
  induction xs with
  | nil =>
    intro pos _ _ hk
    simp only [List.length_nil, Nat.add_zero] at hk
    cases s with
    | nil => simpa [repLazy] using hk
    | cons c t => rw [List.nil_append, repLazy_cons, hk]
  | cons x xs ih =>
    intro pos hok hnone hk
    have hx : ok x = true := hok x (List.mem_cons_self _ _)
    have h0 : k pos (x :: (xs ++ s)) = none := by
      simpa using hnone 0 (by simp)
    have h := ih (pos + 1) (fun c hc => hok c (List.mem_cons_of_mem _ hc))
      (by
        intro i hi
        have := hnone (i + 1) (by simpa using hi)
        simp only [List.drop_succ_cons] at this
        rw [← this]
        congr 1
        omega)
      (by simp only [List.length_cons] at hk; rw [← hk]; congr 1; omega)
    rw [List.cons_append, repLazy_cons, h0]
    simp only [hx, if_true, h]

theorem repGreedy_prop {R : Type} (Q : R → Prop) (ok : Char → Bool)
    (k : Nat → List Char → Option R) (hk : ∀ p t r, k p t = some r → Q r) (s : List Char) :
    ∀ (min pos : Nat) (r : R), repGreedy ok k min pos s = some r → Q r := by
  induction s with
  | nil =>
    intro min pos r h
    rw [repGreedy] at h
    by_cases hm : min = 0
    · rw [if_pos hm] at h; exact hk _ _ _ h
    · rw [if_neg hm] at h; cases h
  | cons c t ih =>
    intro min pos r h
    have h0 : (if min = 0 then k pos (c :: t) else none) = some r → Q r := by
      intro h
      by_cases hm : min = 0
      · rw [if_pos hm] at h; exact hk _ _ _ h
      · rw [if_neg hm] at h; cases h
    rw [repGreedy_cons] at h
    by_cases hc : ok c = true
    · rw [if_pos hc] at h
      cases hrec : repGreedy ok k (min - 1) (pos + 1) t with
      | some r1 =>
        rw [hrec] at h
        cases h
        exact ih _ _ _ hrec
      | none =>
        rw [hrec] at h
        exact h0 h
    · rw [if_neg hc] at h; exact h0 h

theorem findFrom_skip (cc : CharClasses) (pat : List Item) (s : List Char) (pre : List Char) :
    ∀ (pos : Nat),
      (∀ i, i < pre.length → matchHere cc pat Caps.empty (pos + i) (pre.drop i ++ s) = none) →
      findFrom cc pat pos (pre ++ s) = findFrom cc pat (pos + pre.length) s := by
  induction pre with
  | nil => intro pos _; rfl
  | cons x pre ih =>
    intro pos h
    have h0 : matchHere cc pat Caps.empty pos (x :: (pre ++ s)) = none := by
      simpa using h 0 (by simp)
    have h1 := ih (pos + 1) (by
      intro i hi
      have := h (i + 1) (by simpa using hi)
      simp only [List.drop_succ_cons] at this
      rw [← this]
      congr 1
      omega)
    have e : pos + 1 + pre.length = pos + (x :: pre).length := by
      simp only [List.length_cons]; omega
    rw [List.cons_append, findFrom, h0, h1, e]

theorem findFrom_here (cc : CharClasses) (pat : List Item) (pos e : Nat) (caps : Caps)
    (s : List Char) (h : matchHere cc pat Caps.empty pos s = some (e, caps)) :
    findFrom cc pat pos s = some ⟨pos, e, caps⟩ := by
  cases s <;> simp [findFrom, h]

/-! ## Where the literals of the pattern can occur -/

/-- A word whose last character occurs nowhere else in it cannot overlap a
later copy of itself. -/
theorem prefix_of_overlap (u : List Char) (z : Char) (hz : z ∉ u) (X rest : List Char)
    (hX : X ≠ []) (h : u ++ [z] <+: X ++ (u ++ [z] ++ rest)) : u ++ [z] <+: X := by
  rcases List.prefix_or_prefix_of_prefix h (List.prefix_append X _) with h1 | h1
  · exact h1
  · obtain ⟨Z, hZ⟩ := h1
    have hXZ : X ++ Z <+: X ++ (u ++ [z] ++ rest) := by rw [hZ]; exact h
    have hZp : Z <+: u ++ [z] ++ rest := (List.prefix_append_right_inj X).mp hXZ
    have hlen : Z.length ≤ u.length := by
      have hl := congrArg List.length hZ
      have hX1 : 0 < X.length := List.length_pos.mpr hX
      simp only [List.length_append, List.length_singleton] at hl
      omega
    have hZu : Z <+: u :=
      List.prefix_of_prefix_length_le hZp
        (by rw [List.append_assoc]; exact List.prefix_append u _) hlen
    rcases List.append_eq_append_iff.mp hZ with ⟨a, -, ha⟩ | ⟨c, -, hcz⟩
    · exact absurd (hZu.subset (by rw [ha]; simp)) hz
    · cases c with
      | nil =>
        rw [List.nil_append] at hcz
        exact absurd (hZu.subset (by rw [← hcz]; simp)) hz
      | cons x c =>
        have hl := congrArg List.length hcz
        simp only [List.length_append, List.length_cons, List.length_nil] at hl
        have hZ0 : Z = [] := List.length_eq_zero.mp (by omega)
        rw [hZ0, List.append_nil] at hZ
        rw [hZ]

/-- A word without white space that begins inside `X` cannot run on into the
white space that follows `X`. -/
theorem prefix_of_spaced (isSp : Char → Bool) (F X ws T : List Char)
    (hF : ∀ c ∈ F, isSp c = false) (hws : ws ≠ []) (hall : ∀ c ∈ ws, isSp c = true)
    (h : F <+: X ++ (ws ++ T)) : F <+: X := by
  rcases List.prefix_or_prefix_of_prefix h (List.prefix_append X _) with h1 | h1
  · exact h1
  · obtain ⟨Z, hZ⟩ := h1
    have hXZ : X ++ Z <+: X ++ (ws ++ T) := by rw [hZ]; exact h
    have hZp : Z <+: ws ++ T := (List.prefix_append_right_inj X).mp hXZ
    cases Z with
    | nil => rw [List.append_nil] at hZ; rw [hZ]
    | cons z Z =>
      cases ws with
      | nil => exact absurd rfl hws
      | cons w ws =>
        have hzw : z = w := (List.cons_prefix_cons.mp hZp).1
        have h1 : isSp z = false := hF z (by rw [← hZ]; simp)
        have h2 : isSp w = true := hall w (List.mem_cons_self _ _)
        rw [hzw, h2] at h1
        cases h1

/-- After a piece `D` of the condition text, `\s+` followed by a literal
without white space that does not occur in `D` cannot match before `D` ends. -/
theorem space_then_lit_none (cc : CharClasses) (F : List Char) (rest : List Item) (caps : Caps)
    (pos : Nat) (D ws T : List Char) (hD : D ≠ [])
    (hlast : ∀ c, D.getLast? = some c → cc.isSpace c = false)
    (hF : ∀ c ∈ F, cc.isSpace c = false) (hws : ws ≠ []) (hall : ∀ c ∈ ws, cc.isSpace c = true)
    (hinf : ¬ F <:+: D) :
    repGreedy (Atom.space.test cc) (fun p t => matchHere cc (lits F ++ rest) caps p t) 1 pos
      (D ++ (ws ++ T)) = none := by
  apply repGreedy_none
  intro j _ _ hsp
  have hjD : j < D.length := by
    by_contra hge
    have hmem : D.getLast hD ∈ List.take j (D ++ (ws ++ T)) := by
      rw [List.take_append_eq_append_take, List.take_of_length_le (by omega)]
      exact List.mem_append_left _ (List.getLast_mem hD)
    have h1 := hsp _ hmem
    have h2 := hlast _ (List.getLast?_eq_getLast D hD)
    simp only [Atom.test] at h1
    rw [h1] at h2
    cases h2
  rw [List.drop_append_of_le_length (by omega)]
  apply matchHere_lits_none
  intro hpre
  have h1 := prefix_of_spaced cc.isSpace F (List.drop j D) ws T hF hws hall hpre
  exact hinf (h1.isInfix.trans (List.drop_suffix j D).isInfix)

/-- Without capture groups in the pattern, a match returns the offsets it was
given. -/
theorem matchHere_caps (cc : CharClasses) (items : List Item)
    (hng : ∀ it ∈ items, (∃ a, it = Item.atom a) ∨ (∃ a m, it = Item.rep a m true)) :
    ∀ (caps : Caps) (pos : Nat) (s : List Char) (r : Nat × Caps),
      matchHere cc items caps pos s = some r → r.2 = caps := by
  induction items with
  | nil =>
    intro caps pos s r h
    rw [matchHere] at h
    cases h
    rfl
  | cons it items ih =>
    intro caps pos s r h
    have ih1 := ih (fun x hx => hng x (List.mem_cons_of_mem _ hx))
    rcases hng it (List.mem_cons_self _ _) with ⟨a, rfl⟩ | ⟨a, m, rfl⟩
    · cases s with
      | nil => rw [matchHere] at h; cases h
      | cons c t =>
        rw [matchHere_atom_cons] at h
        by_cases hc : a.test cc c = true
        · rw [if_pos hc] at h; exact ih1 _ _ _ _ h
        · rw [if_neg hc] at h; cases h
    · rw [matchHere] at h
      exact repGreedy_prop (fun r => r.2 = caps) _ _ (fun p t r hr => ih1 _ _ _ _ hr) _ _ _ _ h

/-- The part of the pattern after `[File:` matches a path, `] [Line: `, a line
number and `]`, whatever follows. -/
theorem tail_match (cc : CharClasses) (caps : Caps) (pos : Nat) (P N post : List Char)
    (hP : ∀ c ∈ P, pathAtom.test cc c = true) (hN : N ≠ [])
    (hNd : ∀ c ∈ N, cc.isDigit c = true) :
    ∃ e, matchHere cc
        (Item.rep pathAtom 0 true ::
          (lits "] [Line: ".toList ++ (Item.rep Atom.digit 1 true :: (lits "]".toList ++ []))))
        caps pos (P ++ ("] [Line: ".toList ++ (N ++ ("]".toList ++ post)))) = some (e, caps) := by
  have hsome : (matchHere cc
        (Item.rep pathAtom 0 true ::
          (lits "] [Line: ".toList ++ (Item.rep Atom.digit 1 true :: (lits "]".toList ++ []))))
        caps pos (P ++ ("] [Line: ".toList ++ (N ++ ("]".toList ++ post))))).isSome = true := by
    rw [matchHere]
    apply repGreedy_isSome _ _ _ _ _ _ hP (Nat.zero_le _)
    show (matchHere cc _ caps _ _).isSome = true
    rw [matchHere_lits, matchHere]
    apply repGreedy_isSome _ _ _ _ _ _ (fun c hc => by simpa [Atom.test] using hNd c hc)
      (List.length_pos.mpr hN)
    show (matchHere cc _ caps _ _).isSome = true
    rw [matchHere_lits, matchHere]
    rfl
  obtain ⟨r, hr⟩ := Option.isSome_iff_exists.mp hsome
  have hcaps := matchHere_caps cc _ (by
    intro it hit
    simp only [lits, List.mem_cons, List.mem_append, List.mem_map, List.mem_nil_iff, or_false] at hit
    rcases hit with h | ⟨c, -, h⟩ | h | ⟨c, -, h⟩
    · exact Or.inr ⟨_, _, h⟩
    · exact Or.inl ⟨_, h.symm⟩
    · exact Or.inr ⟨_, _, h⟩
    · exact Or.inl ⟨_, h.symm⟩) caps pos _ r hr
  refine ⟨r.1, ?_⟩
  rw [hr, ← hcaps]

/-- The pattern, split at its literals. -/
theorem pattern_eq : EnsureMessagePattern = lits "Ensure condition failed:".toList ++
    (Item.rep Atom.space 1 true :: Item.groupOpen 1 :: Item.rep Atom.dot 0 false ::
      Item.groupClose 1 :: Item.rep Atom.space 1 true :: (lits "[File:".toList ++
        (Item.rep pathAtom 0 true :: (lits "] [Line: ".toList ++
          (Item.rep Atom.digit 1 true :: (lits "]".toList ++ [])))))) := by
  rfl

/-- At the start of the literal the pattern matches, and group 1 is exactly the
condition text between the two white-space runs. -/
theorem match_at (cc : CharClasses) (ws1 C ws2 P N post : List Char)
    (hF : ∀ c ∈ "[File:".toList, cc.isSpace c = false)
    (hws1 : ws1 ≠ []) (hws1s : ∀ c ∈ ws1, cc.isSpace c = true)
    (hws2 : ws2 ≠ []) (hws2s : ∀ c ∈ ws2, cc.isSpace c = true)
    (hCne : C ≠ []) (hCline : ∀ c ∈ C, cc.isLineTerm c = false)
    (hChead : ∀ c, C.head? = some c → cc.isSpace c = false)
    (hClast : ∀ c, C.getLast? = some c → cc.isSpace c = false)
    (hCfile : ¬ "[File:".toList <:+: C)
    (hP : ∀ c ∈ P, pathAtom.test cc c = true)
    (hN : N ≠ []) (hNd : ∀ c ∈ N, cc.isDigit c = true) (pos : Nat) :
    ∃ e, matchHere cc EnsureMessagePattern Caps.empty pos
        ("Ensure condition failed:".toList ++ (ws1 ++ (C ++ (ws2 ++ ("[File:".toList ++
          (P ++ ("] [Line: ".toList ++ (N ++ ("]".toList ++ post)))))))))
      = some (e, (Caps.empty.setStart 1
            (pos + "Ensure condition failed:".toList.length + ws1.length)).setStop 1
          (pos + "Ensure condition failed:".toList.length + ws1.length + C.length)) := by
  rw [pattern_eq, matchHere_lits]
  generalize pos + "Ensure condition failed:".toList.length = p1
  obtain ⟨e, he⟩ := tail_match cc
    ((Caps.empty.setStart 1 (p1 + ws1.length)).setStop 1 (p1 + ws1.length + C.length))
    (p1 + ws1.length + C.length + ws2.length + "[File:".toList.length) P N post hP hN hNd
  refine ⟨e, ?_⟩
  rw [matchHere]
  apply repGreedy_all _ _ _ _ _ ws1 1 _ (fun c hc => by simpa [Atom.test] using hws1s c hc)
    (List.length_pos.mpr hws1)
  · show matchHere cc _ Caps.empty (p1 + ws1.length) _ = _
    rw [matchHere, matchHere]
    apply repLazy_first _ _ _ _ C _ (fun c hc => by simpa [Atom.test] using hCline c hc)
    · intro i hi
      show matchHere cc _ _ _ _ = none
      rw [matchHere, matchHere]
      have hD : List.drop i C ≠ [] := by
        intro h0
        have := List.drop_eq_nil_iff.mp h0
        omega
      apply space_then_lit_none cc _ _ _ _ _ _ _ hD _ hF hws2 hws2s
      · intro hinf
        exact hCfile (hinf.trans (List.drop_suffix i C).isInfix)
      · intro c hc
        rw [List.getLast?_drop, if_neg (by omega)] at hc
        exact hClast c hc
    · show matchHere cc _ _ _ _ = _
      rw [matchHere, matchHere]
      apply repGreedy_all _ _ _ _ _ ws2 1 _ (fun c hc => by simpa [Atom.test] using hws2s c hc)
        (List.length_pos.mpr hws2)
      · show matchHere cc _ _ _ _ = _
        rw [matchHere_lits]
        exact he
      · intro c t hct
        have : c = '[' := by
          have h1 : ("[File:".toList ++ (P ++ ("] [Line: ".toList ++ (N ++ ("]".toList ++ post))))).head?
              = some '[' := rfl
          rw [hct] at h1
          simpa using h1
        rw [this]
        simpa [Atom.test] using hF '[' (by decide)
  · intro c t hct
    cases C with
    | nil => exact absurd rfl hCne
    | cons c0 C1 =>
      have h1 : c = c0 := by
        have h2 := congrArg List.head? hct
        simpa using h2.symm
      rw [h1]
      simpa [Atom.test] using hChead c0 rfl

/-- The search finds the match that starts at the literal, however the message
begins, as long as the literal does not occur earlier. -/
theorem findNext_message (cc : CharClasses) (pre ws1 C ws2 P N post : List Char)
    (hF : ∀ c ∈ "[File:".toList, cc.isSpace c = false)
    (hpre : ¬ "Ensure condition failed:".toList <:+: pre)
    (hws1 : ws1 ≠ []) (hws1s : ∀ c ∈ ws1, cc.isSpace c = true)
    (hws2 : ws2 ≠ []) (hws2s : ∀ c ∈ ws2, cc.isSpace c = true)
    (hCne : C ≠ []) (hCline : ∀ c ∈ C, cc.isLineTerm c = false)
    (hChead : ∀ c, C.head? = some c → cc.isSpace c = false)
    (hClast : ∀ c, C.getLast? = some c → cc.isSpace c = false)
    (hCfile : ¬ "[File:".toList <:+: C)
    (hP : ∀ c ∈ P, pathAtom.test cc c = true)
    (hN : N ≠ []) (hNd : ∀ c ∈ N, cc.isDigit c = true) :
    ∃ m, FindNext cc EnsureMessagePattern
        (pre ++ ("Ensure condition failed:".toList ++ (ws1 ++ (C ++ (ws2 ++ ("[File:".toList ++
          (P ++ ("] [Line: ".toList ++ (N ++ ("]".toList ++ post)))))))))) = some m ∧
      m.caps.start 1 = pre.length + "Ensure condition failed:".toList.length + ws1.length ∧
      m.caps.stop 1 =
        pre.length + "Ensure condition failed:".toList.length + ws1.length + C.length := by
  obtain ⟨e, he⟩ := match_at cc ws1 C ws2 P N post hF hws1 hws1s hws2 hws2s hCne hCline hChead
    hClast hCfile hP hN hNd (0 + pre.length)
  have hfind := findFrom_here cc EnsureMessagePattern _ _ _ _ he
  rw [← findFrom_skip] at hfind
  · exact ⟨_, hfind, by simp [Caps.setStart, Caps.setStop], by simp [Caps.setStart, Caps.setStop]⟩
  · intro i hi
    rw [pattern_eq]
    apply matchHere_lits_none
    intro hpfx
    have hX : List.drop i pre ≠ [] := by
      intro h0
      have := List.drop_eq_nil_iff.mp h0
      omega
    have h1 := prefix_of_overlap "Ensure condition failed".toList ':' (by decide)
      (List.drop i pre) _ hX hpfx
    exact hpre (h1.isInfix.trans (List.drop_suffix i pre).isInfix)

/-! ## Claims -/

/-- C1: `Serialize` posts a task exactly when `GIsEditor` holds, the verbosity
is `Error` and `EnsureMessagePattern` finds a match in the message; and it
never changes `NextNotificationKey` or `ActiveNotifications` itself (so it
leaves them unchanged in every case where nothing is posted). -/
theorem C1_serialize_posts_iff (cc : CharClasses) (GIsEditor : Bool)
    (dev : FEnsureNotifierOutputDevice) (Message : List Char) (Verbosity : ELogVerbosity)
    (Category : String) :
    ((Serialize cc GIsEditor dev Message Verbosity Category).2.isSome = true ↔
      (GIsEditor = true ∧ Verbosity = ELogVerbosity.Error ∧
        (FindNext cc EnsureMessagePattern Message).isSome = true)) ∧
    (Serialize cc GIsEditor dev Message Verbosity Category).1 = dev := by
  unfold Serialize
  cases GIsEditor <;> cases Verbosity <;>
    cases hm : FindNext cc EnsureMessagePattern Message <;> simp [hm]

/-- C2 (amended): for a message `pre ++ "Ensure condition failed:" ++ ws1 ++ C
++ ws2 ++ "[File:" ++ P ++ "] [Line: " ++ N ++ "]" ++ post` with `ws1`, `ws2`
non-empty runs of `\s` characters, `pre` not containing the literal, `C`
non-empty, free of line terminators, neither beginning nor ending with a `\s`
character and not containing `[File:`, `P` made of `\w` characters, `:`, `\`
and `.`, and `N` a non-empty run of `\d` characters, `Serialize` in the editor
at `Error` verbosity posts a task whose captured message is exactly `C`, and
the notification that task creates has the text `"Ensure Failed\n" ++ C`. The
class tables are any in which no character of `[File:` is white space. -/
theorem C2_capture_is_condition (cc : CharClasses) (dev : FEnsureNotifierOutputDevice)
    (Category : String) (pre ws1 C ws2 P N post : List Char)
    (hF : ∀ c ∈ "[File:".toList, cc.isSpace c = false)
    (hpre : ¬ "Ensure condition failed:".toList <:+: pre)
    (hws1 : ws1 ≠ []) (hws1s : ∀ c ∈ ws1, cc.isSpace c = true)
    (hws2 : ws2 ≠ []) (hws2s : ∀ c ∈ ws2, cc.isSpace c = true)
    (hCne : C ≠ []) (hCline : ∀ c ∈ C, cc.isLineTerm c = false)
    (hChead : ∀ c, C.head? = some c → cc.isSpace c = false)
    (hClast : ∀ c, C.getLast? = some c → cc.isSpace c = false)
    (hCfile : ¬ "[File:".toList <:+: C)
    (hP : ∀ c ∈ P, cc.isWord c = true ∨ c = ':' ∨ c = '\\' ∨ c = '.')
    (hN : N ≠ []) (hNd : ∀ c ∈ N, cc.isDigit c = true) :
    ∃ task, (Serialize cc true dev
        (pre ++ "Ensure condition failed:".toList ++ ws1 ++ C ++ ws2 ++ "[File:".toList ++ P ++
          "] [Line: ".toList ++ N ++ "]".toList ++ post)
        ELogVerbosity.Error Category).2 = some task ∧
      task.EnsureMessage = C ∧
      ∀ (d : FEnsureNotifierOutputDevice) (item : NotificationPtr),
        ∃ Info, (task.run d item).2.head? = some (HostCall.AddNotification Info) ∧
          Info.Text = "Ensure Failed\n".toList ++ C := by
  have hP1 : ∀ c ∈ P, pathAtom.test cc c = true := by
    intro c hc
    rcases hP c hc with h | h | h | h <;> simp [pathAtom, Atom.test, h]
  obtain ⟨m, hm, hstart, hstop⟩ := findNext_message cc pre ws1 C ws2 P N post hF hpre hws1 hws1s
    hws2 hws2s hCne hCline hChead hClast hCfile hP1 hN hNd
  have hcap : GetCaptureGroup
      (pre ++ ("Ensure condition failed:".toList ++ (ws1 ++ (C ++ (ws2 ++ ("[File:".toList ++
        (P ++ ("] [Line: ".toList ++ (N ++ ("]".toList ++ post)))))))))) m 1 = C := by
    unfold GetCaptureGroup
    rw [hstart, hstop]
    have e1 : pre ++ ("Ensure condition failed:".toList ++ (ws1 ++ (C ++ (ws2 ++
        ("[File:".toList ++ (P ++ ("] [Line: ".toList ++ (N ++ ("]".toList ++ post)))))))))
        = (pre ++ "Ensure condition failed:".toList ++ ws1) ++ (C ++ (ws2 ++
        ("[File:".toList ++ (P ++ ("] [Line: ".toList ++ (N ++ ("]".toList ++ post))))))) := by
      simp only [List.append_assoc]
    rw [e1, List.drop_left' (by simp only [List.length_append])]
    exact List.take_left' (by omega)
  refine ⟨⟨C⟩, ?_, rfl, ?_⟩
  · simp only [List.append_assoc]
    unfold Serialize
    rw [hm]
    simp only [hcap]
    rfl
  · intro d item
    exact ⟨makeInfo C d.NextNotificationKey, by cases item <;> rfl, rfl⟩

/-- C2 on a line as the engine logs it, with a Windows path. -/
theorem C2_capture_is_condition_witness :
    ∃ task, (Serialize asciiClasses true FEnsureNotifierOutputDevice.init
        ("LogOutputDevice: Error: ".toList ++ "Ensure condition failed:".toList ++ " ".toList ++
          "Foo != nullptr".toList ++ " ".toList ++ "[File:".toList ++ "D:\\build\\Foo.cpp".toList ++
          "] [Line: ".toList ++ "42".toList ++ "]".toList ++ " \n".toList)
        ELogVerbosity.Error "LogOutputDevice").2 = some task ∧
      task.EnsureMessage = "Foo != nullptr".toList ∧
      ∀ (d : FEnsureNotifierOutputDevice) (item : NotificationPtr),
        ∃ Info, (task.run d item).2.head? = some (HostCall.AddNotification Info) ∧
          Info.Text = "Ensure Failed\n".toList ++ "Foo != nullptr".toList :=
  C2_capture_is_condition asciiClasses FEnsureNotifierOutputDevice.init "LogOutputDevice"
    "LogOutputDevice: Error: ".toList " ".toList "Foo != nullptr".toList " ".toList
    "D:\\build\\Foo.cpp".toList "42".toList " \n".toList
    (by decide) (by decide) (by decide) (by decide) (by decide) (by decide) (by decide)
    (by decide) (by intro c h; cases h; decide) (by intro c h; cases h; decide) (by decide)
    (by decide) (by decide) (by decide)

/-- C2 as stated fails for an empty condition text: every hypothesis of the
claim holds with `C` empty, yet the group captured from
`Ensure condition failed:  [File:a] [Line: 1] [File:b] [Line: 2]` is
`[File:a] [Line: 1]`, so the notification text is not `"Ensure Failed\n" ++ C`. -/
theorem C2_counterexample_empty_condition :
    (¬ "Ensure condition failed:".toList <:+: ([] : List Char)) ∧
    (" ".toList ≠ [] ∧ ∀ c ∈ " ".toList, asciiClasses.isSpace c = true) ∧
    (∀ c ∈ ([] : List Char), asciiClasses.isLineTerm c = false) ∧
    (∀ c, ([] : List Char).head? = some c → asciiClasses.isSpace c = false) ∧
    (∀ c, ([] : List Char).getLast? = some c → asciiClasses.isSpace c = false) ∧
    (¬ "[File:".toList <:+: ([] : List Char)) ∧
    (∀ c ∈ "a".toList, asciiClasses.isWord c = true ∨ c = ':' ∨ c = '\\' ∨ c = '.') ∧
    ("1".toList ≠ [] ∧ ∀ c ∈ "1".toList, asciiClasses.isDigit c = true) ∧
    (Serialize asciiClasses true FEnsureNotifierOutputDevice.init
        ([] ++ "Ensure condition failed:".toList ++ " ".toList ++ [] ++ " ".toList ++
          "[File:".toList ++ "a".toList ++ "] [Line: ".toList ++ "1".toList ++ "]".toList ++
          " [File:b] [Line: 2]".toList)
        ELogVerbosity.Error "LogOutputDevice").2 = some ⟨"[File:a] [Line: 1]".toList⟩ ∧
    ((NotificationTask.mk "[File:a] [Line: 1]".toList).run
        FEnsureNotifierOutputDevice.init none).2 =
      [HostCall.AddNotification (makeInfo "[File:a] [Line: 1]".toList 0)] ∧
    (makeInfo "[File:a] [Line: 1]".toList 0).Text = "Ensure Failed\n[File:a] [Line: 1]".toList ∧
    (makeInfo "[File:a] [Line: 1]".toList 0).Text ≠ "Ensure Failed\n".toList ++ [] := by
  refine ⟨by decide, by decide, by decide, ?_, ?_, by decide, by decide, by decide, by decide,
    by decide, by decide, by decide⟩
  · intro c h; cases h
  · intro c h; cases h

/-- C3: two ensure lines of the stated form that the pattern does not match, so
that `Serialize` posts nothing: one whose path has `/`, one whose path has `+`;
the same line with a path of letters, `:`, `\` and `.` only is detected. -/
theorem C3_path_not_detected :
    (Serialize asciiClasses true FEnsureNotifierOutputDevice.init
        "Ensure condition failed: x [File:/home/dev/Game.cpp] [Line: 42]".toList
        ELogVerbosity.Error "LogOutputDevice").2 = none ∧
    (Serialize asciiClasses true FEnsureNotifierOutputDevice.init
        "Ensure condition failed: x [File:D:\\build\\++UE5\\Sync\\Game.cpp] [Line: 42]".toList
        ELogVerbosity.Error "LogOutputDevice").2 = none ∧
    (Serialize asciiClasses true FEnsureNotifierOutputDevice.init
        "Ensure condition failed: x [File:D:\\build\\Sync\\Game.cpp] [Line: 42]".toList
        ELogVerbosity.Error "LogOutputDevice").2 = some ⟨"x".toList⟩ := by
  refine ⟨?_, ?_, ?_⟩ <;> decide

/-- C4: pressing Dismiss for a key `k` that is in `ActiveNotifications` removes
exactly the entry `k`: `k` is absent afterwards, every other key maps to what
it mapped to before, `NextNotificationKey` is unchanged, and the only host call
is `Fadeout` on the item stored under `k`, made when that item is valid. -/
theorem C4_dismiss_removes_exactly (dev : FEnsureNotifierOutputDevice) (k : Int)
    (h : dev.ActiveNotifications.Contains k = true) :
    ∃ v dev1, dev.ActiveNotifications.Find k = some v ∧
      DismissButton dev k =
        some (dev1, match v with
          | some w => [HostCall.Fadeout w]
          | none => []) ∧
      dev1.ActiveNotifications.Contains k = false ∧
      (∀ j, j ≠ k → dev1.ActiveNotifications.Find j = dev.ActiveNotifications.Find j) ∧
      dev1.NextNotificationKey = dev.NextNotificationKey := by
  rcases dismiss_eq dev k with ⟨hc, -⟩ | ⟨v, -, hv, hd⟩
  · rw [h] at hc; cases hc
  · exact ⟨v, _, hv, hd, TMap.contains_remove_self _ _,
      fun j hj => TMap.find_remove_ne _ hj, rfl⟩

/-- C4 at `sampleDevice` and key `0`. -/
theorem C4_dismiss_removes_exactly_witness :
    sampleDevice.ActiveNotifications.Contains 0 = true ∧
    ∃ v dev1, sampleDevice.ActiveNotifications.Find 0 = some v ∧
      DismissButton sampleDevice 0 =
        some (dev1, match v with
          | some w => [HostCall.Fadeout w]
          | none => []) ∧
      dev1.ActiveNotifications.Contains 0 = false ∧
      (∀ j, j ≠ 0 →
        dev1.ActiveNotifications.Find j = sampleDevice.ActiveNotifications.Find j) ∧
      dev1.NextNotificationKey = sampleDevice.NextNotificationKey :=
  ⟨by decide, C4_dismiss_removes_exactly sampleDevice 0 (by decide)⟩

/-- C5: in every state and for every key `k` (in the map or not), pressing
"Open in Log" requests the "OutputLog" tab and otherwise does exactly what
pressing Dismiss for `k` does from that state: the same resulting
`ActiveNotifications` and `NextNotificationKey` and the same `Fadeout` calls. -/
theorem C5_openInLog_is_tab_then_dismiss (dev : FEnsureNotifierOutputDevice) (k : Int) :
    ∃ dev1 calls, DismissButton dev k = some (dev1, calls) ∧
      OpenInLogButton dev k = some (dev1, HostCall.TryInvokeTab "OutputLog" :: calls) :=
  openInLog_eq dev k

/-- C6: every notification the task creates is passed to `AddNotification` with
`bFireAndForget` false and `ExpireDuration` `0`, but with `FadeOutDuration`
`1`, not the `0` that the comment above the assignment announces. -/
theorem C6_fadeOutDuration_is_one (task : NotificationTask) (dev : FEnsureNotifierOutputDevice)
    (item : NotificationPtr) :
    ∃ Info, (task.run dev item).2.head? = some (HostCall.AddNotification Info) ∧
      Info.bFireAndForget = false ∧ Info.ExpireDuration = 0 ∧
      Info.FadeOutDuration = 1 ∧ Info.FadeOutDuration ≠ 0 := by
  refine ⟨makeInfo task.EnsureMessage dev.NextNotificationKey, ?_, rfl, rfl, rfl, ?_⟩
  · cases item <;> rfl
  · show (1 : ℚ) ≠ 0
    exact one_ne_zero

/-- C7: with the global log alive, no device held yet and a newly allocated
device address, `StartupModule` registers exactly that one listener in the
editor and none outside it; `ShutdownModule` after `StartupModule` leaves the
registered listeners as they were before; and `ShutdownModule` without a
device changes nothing. -/
theorem C7_startup_shutdown (GIsEditor : Bool) (address : Nat) (devices : List Nat)
    (hfresh : address ∉ devices) :
    StartupModule true address ⟨some devices, none⟩
      = some ⟨some (devices ++ [address]), some address⟩ ∧
    StartupModule false address ⟨some devices, none⟩ = some ⟨some devices, none⟩ ∧
    (StartupModule GIsEditor address ⟨some devices, none⟩).map
      (fun w => (ShutdownModule w).GLog) = some (some devices) ∧
    (∀ g, ShutdownModule ⟨g, none⟩ = ⟨g, none⟩) := by
  have hrem : RemoveOutputDevice (devices ++ [address]) address = devices := by
    simp only [RemoveOutputDevice, List.filter_append, List.filter_cons, decide_True,
      Bool.not_true, List.filter_nil, List.append_nil]
    simp only [Bool.false_eq_true, if_false, List.append_nil]
    rw [List.filter_eq_self]
    intro x hx
    have : x ≠ address := fun hxa => hfresh (hxa ▸ hx)
    simp [this]
  have hstart : StartupModule true address ⟨some devices, none⟩
      = some ⟨some (devices ++ [address]), some address⟩ := by
    simp [StartupModule, AddOutputDevice, hfresh]
  refine ⟨hstart, rfl, ?_, fun g => rfl⟩
  cases GIsEditor with
  | false => rfl
  | true =>
    rw [hstart]
    simp [ShutdownModule, destroyDevice, hrem]

/-- C7 with two devices already registered and a new one at address `5`. -/
theorem C7_startup_shutdown_witness :
    5 ∉ [3, 4] ∧
    (StartupModule true 5 ⟨some [3, 4], none⟩ = some ⟨some ([3, 4] ++ [5]), some 5⟩ ∧
    StartupModule false 5 ⟨some [3, 4], none⟩ = some ⟨some [3, 4], none⟩ ∧
    (StartupModule true 5 ⟨some [3, 4], none⟩).map
      (fun w => (ShutdownModule w).GLog) = some (some [3, 4]) ∧
    (∀ g, ShutdownModule ⟨g, none⟩ = ⟨g, none⟩)) :=
  ⟨by decide, C7_startup_shutdown true 5 [3, 4] (by decide)⟩

/-- C8: every widget call is guarded. In every state: the task calls
`SetCompletionState` only on the valid item `AddNotification` returned and
stores the returned item under the new key even when it is null (then making
no call on it); a key that `Contains` reports is found by
`FindAndRemoveChecked`, so no delegate fails the check; a delegate calls
`Fadeout` only on a valid item that was stored under its own key; and no
sequence of events fails. -/
theorem C8_mutations_guarded (dev : FEnsureNotifierOutputDevice) (task : NotificationTask)
    (item : NotificationPtr) (button : ButtonDelegate) (es : List Event) :
    (∀ w st, HostCall.SetCompletionState w st ∈ (task.run dev item).2 → item = some w) ∧
    (∀ w, HostCall.Fadeout w ∉ (task.run dev item).2) ∧
    (task.run dev item).1.ActiveNotifications.Find dev.NextNotificationKey = some item ∧
    (task.run dev none).2 =
      [HostCall.AddNotification (makeInfo task.EnsureMessage dev.NextNotificationKey)] ∧
    (∀ k, dev.ActiveNotifications.Contains k = true →
      (dev.ActiveNotifications.FindAndRemoveChecked k).isSome = true) ∧
    (∃ dev1 calls, button.execute dev = some (dev1, calls) ∧
      (∀ w, HostCall.Fadeout w ∈ calls →
        dev.ActiveNotifications.Find button.key = some (some w)) ∧
      (∀ w st, HostCall.SetCompletionState w st ∉ calls)) ∧
    (run dev es).isSome = true := by
  refine ⟨?_, ?_, TMap.find_add_self _ _ _, rfl, ?_, ?_, run_isSome es dev⟩
  · intro w st hmem
    cases item with
    | none => simp [NotificationTask.run] at hmem
    | some x =>
      simp only [NotificationTask.run, List.mem_cons, List.mem_singleton, HostCall.SetCompletionState.injEq,
        List.mem_nil_iff, or_false] at hmem
      rcases hmem with h | h
      · cases h
      · rw [h.1]
  · intro w hmem
    cases item <;> simp [NotificationTask.run] at hmem
  · intro k hk
    obtain ⟨v, hv⟩ := TMap.find_isSome_of_contains _ _ hk
    simp [TMap.FindAndRemoveChecked, hv]
  · have key : ∀ k, ∃ dev1 calls, DismissButton dev k = some (dev1, calls) ∧
        (∀ w, HostCall.Fadeout w ∈ calls → dev.ActiveNotifications.Find k = some (some w)) ∧
        (∀ w st, HostCall.SetCompletionState w st ∉ calls) := by
      intro k
      rcases dismiss_eq dev k with ⟨-, hd⟩ | ⟨v, -, hv, hd⟩
      · exact ⟨_, _, hd, by simp, by simp⟩
      · refine ⟨_, _, hd, ?_, ?_⟩
        · intro w hw
          cases v with
          | none => simp at hw
          | some x =>
            simp only [List.mem_singleton, HostCall.Fadeout.injEq] at hw
            rw [hv, hw]
        · intro w st
          cases v <;> simp
    cases button with
    | Dismiss k => exact key k
    | OpenInLog k =>
      obtain ⟨d, c, hd, hfade, hset⟩ := key k
      obtain ⟨d2, c2, hd2, ho⟩ := openInLog_eq dev k
      rw [hd] at hd2
      cases hd2
      refine ⟨d, _, ho, ?_, ?_⟩
      · intro w hw
        simp only [List.mem_cons] at hw
        rcases hw with hw | hw
        · cases hw
        · exact hfade w hw
      · intro w st hw
        simp only [List.mem_cons] at hw
        rcases hw with hw | hw
        · cases hw
        · exact hset w st hw

/-- C9: pressing a button of notification `k` again (either button, right
after either button) changes nothing and requests no `Fadeout`; and over every
sequence of creations and presses from the initial device, in which the host
returns each valid item from `AddNotification` once, `Fadeout` is requested at
most once on each item. -/
theorem C9_presses_idempotent (dev : FEnsureNotifierOutputDevice) (b1 b2 : ButtonDelegate)
    (es : List Event) (hkey : b1.key = b2.key) (hitems : (createdItems es).Nodup) :
    (∃ dev1 calls1 calls2, b1.execute dev = some (dev1, calls1) ∧
      b2.execute dev1 = some (dev1, calls2) ∧ ∀ w, HostCall.Fadeout w ∉ calls2) ∧
    (∃ d c, run FEnsureNotifierOutputDevice.init es = some (d, c) ∧
      ∀ w, c.count (HostCall.Fadeout w) ≤ 1) := by
  constructor
  · have hgone : ∃ dev1 calls1, b1.execute dev = some (dev1, calls1) ∧
        dev1.ActiveNotifications.Contains b1.key = false := by
      rcases execute_cases dev b1 with ⟨hc, c1, hex, -, -⟩ | ⟨v, -, -, c1, hex, -, -⟩
      · exact ⟨_, _, hex, hc⟩
      · exact ⟨_, _, hex, TMap.contains_remove_self _ _⟩
    obtain ⟨dev1, calls1, hex1, hc⟩ := hgone
    rw [hkey] at hc
    rcases execute_cases dev1 b2 with ⟨-, c2, hex2, hf2, -⟩ | ⟨v, hc2, -, -, -, -, -⟩
    · refine ⟨dev1, calls1, c2, hex1, hex2, ?_⟩
      intro w
      rw [← List.count_eq_zero, count_fadeout, hf2]
      rfl
    · rw [hc] at hc2; cases hc2
  · obtain ⟨d, c, hrun, hnd, -⟩ := run_fade es FEnsureNotifierOutputDevice.init
      (by intro k1 k2 w h1; simp [FEnsureNotifierOutputDevice.init] at h1) hitems
      (by intro w _ k h1; simp [FEnsureNotifierOutputDevice.init] at h1)
    refine ⟨d, c, hrun, ?_⟩
    intro w
    rw [count_fadeout]
    exact List.nodup_iff_count_le_one.mp hnd w

/-- C9 at `sampleDevice`, the two buttons of key `0` and `sampleEvents`. -/
theorem C9_presses_idempotent_witness :
    (ButtonDelegate.Dismiss 0).key = (ButtonDelegate.OpenInLog 0).key ∧
    (createdItems sampleEvents).Nodup ∧
    (∃ dev1 calls1 calls2, (ButtonDelegate.Dismiss 0).execute sampleDevice = some (dev1, calls1) ∧
      (ButtonDelegate.OpenInLog 0).execute dev1 = some (dev1, calls2) ∧
      ∀ w, HostCall.Fadeout w ∉ calls2) ∧
    (∃ d c, run FEnsureNotifierOutputDevice.init sampleEvents = some (d, c) ∧
      ∀ w, c.count (HostCall.Fadeout w) ≤ 1) :=
  ⟨rfl, by decide,
    C9_presses_idempotent sampleDevice (ButtonDelegate.Dismiss 0) (ButtonDelegate.OpenInLog 0)
      sampleEvents rfl (by decide)⟩

/-- C10: from the initial device, after every sequence of creations and
presses with fewer than `2^31` creations: every key in `ActiveNotifications`
is non-negative and below `NextNotificationKey`; `NextNotificationKey` is the
number of creations; the buttons of the `n`-th notification created carry key
`n-1`, so no two notifications share a key; and a further creation (still
below the bound) uses a key that is not in the map, so `Add` overwrites
nothing, and raises `NextNotificationKey` by exactly one. -/
theorem C10_keys_unique (es : List Event) (h : creations es < 2 ^ 31) :
    ∃ dev calls, run FEnsureNotifierOutputDevice.init es = some (dev, calls) ∧
      (∀ k, dev.ActiveNotifications.Contains k = true → 0 ≤ k ∧ k < dev.NextNotificationKey) ∧
      dev.NextNotificationKey = (creations es : Int) ∧
      buttonKeys calls = (List.range (creations es)).map (fun (i : Nat) => [(i : Int), (i : Int)]) ∧
      (buttonKeys calls).Pairwise (fun a b => ∀ k ∈ a, k ∉ b) ∧
      (creations es + 1 < 2 ^ 31 → ∀ (task : NotificationTask) (item : NotificationPtr),
        dev.ActiveNotifications.Contains dev.NextNotificationKey = false ∧
        (task.run dev item).1.NextNotificationKey = dev.NextNotificationKey + 1 ∧
        (task.run dev item).1.ActiveNotifications.Find dev.NextNotificationKey = some item ∧
        buttonKeys (task.run dev item).2 = [[(creations es : Int), (creations es : Int)]]) := by
  obtain ⟨dev, calls, hrun, hn, hk, hbk⟩ := run_keys es FEnsureNotifierOutputDevice.init
    (by simp [FEnsureNotifierOutputDevice.init])
    (by simp only [FEnsureNotifierOutputDevice.init]; omega)
    (by intro k hc; simp [FEnsureNotifierOutputDevice.init, TMap.Contains] at hc)
  simp only [FEnsureNotifierOutputDevice.init, zero_add] at hn hbk
  refine ⟨dev, calls, hrun, hk, hn, hbk, ?_, ?_⟩
  · rw [hbk, List.pairwise_map]
    refine (List.pairwise_lt_range (creations es)).imp ?_
    intro i j hij k hki hkj
    simp only [List.mem_cons, List.mem_singleton, List.mem_nil_iff, or_false, or_self] at hki hkj
    omega
  · intro hb task item
    have hw : wrapInt32 (dev.NextNotificationKey + 1) = dev.NextNotificationKey + 1 :=
      wrapInt32_succ _ (by omega) (by omega)
    refine ⟨?_, ?_, TMap.find_add_self _ _ _, ?_⟩
    · cases hc : dev.ActiveNotifications.Contains dev.NextNotificationKey with
      | false => rfl
      | true => have := hk _ hc; omega
    · simp only [NotificationTask.run, hw]
    · rw [← hn]; cases item <;> rfl

/-- C10 at `sampleEvents`, which creates three notifications. -/
theorem C10_keys_unique_witness :
    creations sampleEvents < 2 ^ 31 ∧
    ∃ dev calls, run FEnsureNotifierOutputDevice.init sampleEvents = some (dev, calls) ∧
      (∀ k, dev.ActiveNotifications.Contains k = true → 0 ≤ k ∧ k < dev.NextNotificationKey) ∧
      dev.NextNotificationKey = (creations sampleEvents : Int) ∧
      buttonKeys calls =
        (List.range (creations sampleEvents)).map (fun (i : Nat) => [(i : Int), (i : Int)]) ∧
      (buttonKeys calls).Pairwise (fun a b => ∀ k ∈ a, k ∉ b) ∧
      (creations sampleEvents + 1 < 2 ^ 31 → ∀ (task : NotificationTask) (item : NotificationPtr),
        dev.ActiveNotifications.Contains dev.NextNotificationKey = false ∧
        (task.run dev item).1.NextNotificationKey = dev.NextNotificationKey + 1 ∧
        (task.run dev item).1.ActiveNotifications.Find dev.NextNotificationKey = some item ∧
        buttonKeys (task.run dev item).2 =
          [[(creations sampleEvents : Int), (creations sampleEvents : Int)]]) :=
  ⟨by decide, C10_keys_unique sampleEvents (by decide)⟩

end OGEnsureAlert
